import Mathlib

/-!
Verification of the teehee_noload_fork editable-buffer engine.

The delta algebra lives in src/history.rs; its rope and subset primitives
(byte_rope.rs and the xi-rope multiset/delta machinery) are not part of the
source tree, so those primitives are modelled from the specification, as
marked on each definition.  The windowed buffer manager and render pipeline
are translated from src/hex_view/view.rs, navigation from src/navigation.rs.
-/

namespace Teehee

/-- A byte of the buffer.  Byte values are only carried around, never
computed with, so Nat is an adequate carrier. -/
abbrev Byte := Nat

/-- Modelled from the spec: ByteRope (byte_rope.rs is not under src/).
The spec describes it as an immutable byte sequence; only its sequence of
bytes is observable, so it is modelled as a list of bytes. -/
abbrev Rope := List Byte

/-- Modelled from the spec: one segment of a Delta, either
"copy range [a,b) from base" or "insert literal bytes" (spec section 3). -/
inductive DeltaElement where
  | copy (a b : Nat)
  | insert (bytes : List Byte)
deriving DecidableEq, Repr

/-- Modelled from the spec: a Delta is a base length plus an ordered,
non-overlapping list of segments (spec section 3). -/
structure Delta where
  els : List DeltaElement
  base_len : Nat
deriving DecidableEq, Repr

/-- The contiguous byte range [a, b) of a list. -/
def slice (l : List Byte) (a b : Nat) : List Byte := (l.drop a).take (b - a)

/-- Applying a list of delta segments to a base rope: concatenate the
copied ranges and the inserted literals, in order. -/
def applyEls (base : Rope) : List DeltaElement → Rope
  | [] => []
  | .copy a b :: rest => slice base a b ++ applyEls base rest
  | .insert bs :: rest => bs ++ applyEls base rest

/-- Modelled from the spec: apply(base, d).  The spec signals LengthMismatch
when d.base_len differs from the base length; theorems carry that
side-condition as a hypothesis instead. -/
def apply_delta (base : Rope) (d : Delta) : Rope := applyEls base d.els

/-- Well-formedness of a segment list (spec section 3: segments are ordered
and non-overlapping, copies stay within the base): copies appear with
non-decreasing, in-bounds ranges.  `pos` is the least base index the next
copy may use. -/
def elsWF (len : Nat) : Nat → List DeltaElement → Bool
  | _, [] => true
  | pos, .copy a b :: rest => decide (pos ≤ a) && decide (a ≤ b) && decide (b ≤ len) && elsWF len b rest
  | pos, .insert _ :: rest => elsWF len pos rest

/-- A Delta is well formed when its segment list is. -/
def Delta.wf (d : Delta) : Bool := elsWF d.base_len 0 d.els

/-- An Action is a Delta plus enough information to invert it
(src/history.rs, struct Action). -/
structure Action where
  delta : Delta
deriving DecidableEq, Repr

/-- src/history.rs, Action::from_delta. -/
def Action.from_delta (d : Delta) : Action := ⟨d⟩

/-- Modelled from the spec: the segment list of invert(d, base)
(spec section 4.1; Action::invert in src/history.rs builds it through the
missing xi-rope subset primitives).  Walking the segments of d with `pos`
the next base position not yet accounted for and `out` the corresponding
position in the post-edit rope: base bytes that d deleted become literal
inserts, base ranges that d copied become copies from their position in the
post-edit rope, and positions that d inserted are simply not covered, hence
deleted by the inverse. -/
def invertEls (base : Rope) : List DeltaElement → Nat → Nat → List DeltaElement
  | [], pos, _ =>
      if pos < base.length then [.insert (slice base pos base.length)] else []
  | .copy a b :: rest, pos, out =>
      (if pos < a then [DeltaElement.insert (slice base pos a)] else [])
        ++ DeltaElement.copy out (out + (b - a)) :: invertEls base rest b (out + (b - a))
  | .insert bs :: rest, pos, out => invertEls base rest pos (out + bs.length)

/-- Modelled from the spec: invert(d, base) (spec section 4.1). -/
def Delta.invert (d : Delta) (base : Rope) : Delta :=
  ⟨invertEls base d.els 0 0, (apply_delta base d).length⟩

/-- src/history.rs, Action::invert, with the delta inversion spec-modelled. -/
def Action.invert (a : Action) (base_rope : Rope) : Action :=
  ⟨a.delta.invert base_rope⟩

/- Basic slice algebra. -/

theorem slice_length_of_le {l : List Byte} {a b : Nat} (hab : a ≤ b) (hb : b ≤ l.length) :
    (slice l a b).length = b - a := by
  simp only [slice, List.length_take, List.length_drop]
  omega

theorem slice_append_drop (l : List Byte) {a b : Nat} (hab : a ≤ b) :
    slice l a b ++ l.drop b = l.drop a := by
  have hb : l.drop b = (l.drop a).drop (b - a) := by
    rw [List.drop_drop]
    congr 1
    omega
  rw [slice, hb, List.take_append_drop]

theorem applyEls_append (base : Rope) (xs ys : List DeltaElement) :
    applyEls base (xs ++ ys) = applyEls base xs ++ applyEls base ys := by
  induction xs with
  | nil => rfl
  | cons e rest ih =>
      cases e <;> simp [applyEls, ih]

/-- Main induction for invertibility: if `final` coincides with the
application of `els` from position `out` on, then applying the inverse
segments recovers the part of the base from `pos` on. -/
theorem applyEls_invertEls (base : Rope) (els : List DeltaElement) :
    ∀ (pos out : Nat) (final : List Byte),
      elsWF base.length pos els = true →
      final.drop out = applyEls base els →
      applyEls final (invertEls base els pos out) = base.drop pos := by
  induction els with
  | nil =>
      intro pos out final _ _
      by_cases hp : pos < base.length
      · simp only [invertEls, if_pos hp, applyEls]
        have : base.drop base.length = [] := by simp
        calc slice base pos base.length ++ []
            = slice base pos base.length ++ base.drop base.length := by rw [this]
          _ = base.drop pos := slice_append_drop base (Nat.le_of_lt hp)
      · simp only [invertEls, if_neg hp, applyEls]
        have : base.length ≤ pos := Nat.le_of_not_lt hp
        rw [List.drop_eq_nil_of_le this]
  | cons e rest ih =>
      intro pos out final hwf happ
      cases e with
      | copy a b =>
          simp only [elsWF, Bool.and_eq_true, decide_eq_true_eq] at hwf
          obtain ⟨⟨⟨hpa, hab⟩, hbl⟩, hrest⟩ := hwf
          simp only [applyEls] at happ
          -- the copy segment of d occupies final[out, out + (b-a))
          have hlen : (slice base a b).length = b - a := slice_length_of_le hab hbl
          have hseg : slice final out (out + (b - a)) = slice base a b := by
            have h0 : out + (b - a) - out = b - a := by omega
            have h1 : (final.drop out).take (b - a) = slice base a b := by
              rw [happ, List.take_append_of_le_length (le_of_eq hlen.symm),
                List.take_of_length_le (le_of_eq hlen)]
            rw [slice, h0, h1]
          have hdrop : final.drop (out + (b - a)) = applyEls base rest := by
            have h2 : final.drop (out + (b - a)) = (final.drop out).drop (b - a) := by
              rw [List.drop_drop]
            rw [h2, happ, List.drop_append_of_le_length (le_of_eq hlen.symm),
              List.drop_of_length_le (le_of_eq hlen), List.nil_append]
          have hih := ih b (out + (b - a)) final hrest hdrop
          have hmain : slice final out (out + (b - a)) ++ applyEls final (invertEls base rest b (out + (b - a))) = base.drop a := by
            rw [hseg, hih]
            exact slice_append_drop base hab
          simp only [invertEls, applyEls_append, applyEls]
          by_cases hpos : pos < a
          · rw [if_pos hpos]
            simp only [applyEls, List.append_nil]
            rw [hmain]
            exact slice_append_drop base (Nat.le_of_lt hpos)
          · have hpa' : pos = a := by omega
            subst hpa'
            rw [if_neg hpos]
            simp only [applyEls, List.nil_append]
            exact hmain
      | insert bs =>
          simp only [elsWF] at hwf
          simp only [applyEls] at happ
          have hdrop : final.drop (out + bs.length) = applyEls base rest := by
            have h2 : final.drop (out + bs.length) = (final.drop out).drop bs.length := by
              rw [List.drop_drop]
            rw [h2, happ, List.drop_append_of_le_length (Nat.le_refl _),
              List.drop_of_length_le (Nat.le_refl _), List.nil_append]
          simpa only [invertEls] using ih pos (out + bs.length) final hwf hdrop

/-- C1.  Invertibility of deltas: for every ByteRope b and well-formed Delta
d with d.base_len = b.len(), applying d to b and then applying
Action::invert (computed against the pre-edit rope b) to the result yields
b again. -/
theorem invert_roundtrip (b : Rope) (act : Action)
    (hwf : act.delta.wf = true) (hlen : act.delta.base_len = b.length) :
    apply_delta (apply_delta b act.delta) (act.invert b).delta = b := by
  have hwf' : elsWF b.length 0 act.delta.els = true := by
    rw [← hlen]; exact hwf
  have happ : (apply_delta b act.delta).drop 0 = applyEls b act.delta.els := by
    simp [apply_delta]
  have := applyEls_invertEls b act.delta.els 0 0 (apply_delta b act.delta) hwf' happ
  simpa [apply_delta, Action.invert, Delta.invert] using this

/-- Witness for C1 at Scenario A of the spec: base [0,1,2,3], delete [0..1)
(the delta keeps only the copy of [1..4)); inverting and reapplying restores
[0,1,2,3]. -/
theorem invert_roundtrip_witness :
    apply_delta (apply_delta [0, 1, 2, 3] (Delta.mk [.copy 1 4] 4))
        ((Action.mk (Delta.mk [.copy 1 4] 4)).invert [0, 1, 2, 3]).delta = [0, 1, 2, 3] :=
  invert_roundtrip [0, 1, 2, 3] (Action.mk (Delta.mk [.copy 1 4] 4)) (by decide) (by decide)

/- Chaining (composition) of deltas. -/

/-- The number of bytes a segment contributes to the target rope. -/
def elLen : DeltaElement → Nat
  | .copy a b => b - a
  | .insert bs => bs.length

/-- The part of a single segment lying in the target interval [s, t),
expressed in the coordinates of the segment itself. -/
def restrictEl : DeltaElement → Nat → Nat → List DeltaElement
  | .copy a _b, s, t => if s < t then [.copy (a + s) (a + t)] else []
  | .insert bs, s, t => if s < t then [.insert (slice bs s t)] else []

/-- The sub-segments of a segment list whose target positions lie in
[p, q): the surviving mid-rope range of a chained copy, re-expressed over
the base. -/
def partEls : List DeltaElement → Nat → Nat → List DeltaElement
  | [], _, _ => []
  | e :: rest, p, q =>
      restrictEl e (min p (elLen e)) (min q (elLen e))
        ++ partEls rest (p - elLen e) (q - elLen e)

/-- Modelled from the spec: the segment list of chain(d1, d2)
(spec section 4.1; Action::chain in src/history.rs builds it through the
missing xi-rope subset primitives).  Segments that d2 inserts survive as
literal inserts; ranges that d2 copies from the mid rope are re-expressed
through the segments of d1, so that the literal content d1 inserted is
carried forward and the ranges d1 copied refer to the base again. -/
def chainEls (els1 : List DeltaElement) : List DeltaElement → List DeltaElement
  | [] => []
  | .copy p q :: rest => partEls els1 p q ++ chainEls els1 rest
  | .insert bs :: rest => .insert bs :: chainEls els1 rest

/-- Modelled from the spec: chain(d1, mid, d2) (spec section 4.1). -/
def Delta.chain (d1 : Delta) (d2 : Delta) : Delta :=
  ⟨chainEls d1.els d2.els, d1.base_len⟩

/-- src/history.rs, Action::chain, with the delta composition
spec-modelled.  The code threads the post-self rope only to read the
surviving literal content (the tombstones); the model reads that content
directly from the insert segments of the first delta, so the argument is
not consumed. -/
def Action.chain (a : Action) (after_self : Rope) (next : Delta) : Action :=
  ⟨a.delta.chain next⟩

theorem slice_append (xs ys : List Byte) (p q : Nat) :
    slice (xs ++ ys) p q = slice xs p q ++ slice ys (p - xs.length) (q - xs.length) := by
  simp only [slice, List.drop_append_eq_append_drop, List.take_append_eq_append_take,
    List.length_drop]
  congr 2
  omega

theorem slice_clamp (seg : List Byte) (p q : Nat) :
    slice seg p q = slice seg (min p seg.length) (min q seg.length) := by
  rcases Nat.le_total p seg.length with hp | hp
  · rw [min_eq_left hp, slice, slice]
    apply List.take_eq_take.mpr
    simp only [List.length_drop]
    omega
  · rw [min_eq_right hp, slice, slice, List.drop_of_length_le hp, List.drop_length]
    simp

theorem applyEls_restrictEl_copy (base : Rope) (a b s t : Nat) (ht : t ≤ b - a) :
    applyEls base (restrictEl (.copy a b) s t) = slice (slice base a b) s t := by
  by_cases hst : s < t
  · simp only [restrictEl, if_pos hst, applyEls, List.append_nil]
    rw [slice, slice, slice, List.drop_take, List.drop_drop]
    rw [List.take_take]
    congr 1
    omega
  · simp only [restrictEl, if_neg hst, applyEls]
    rw [slice, show t - s = 0 by omega, List.take_zero]

theorem applyEls_restrictEl_insert (bs : List Byte) (base : Rope) (s t : Nat) :
    applyEls base (restrictEl (.insert bs) s t) = slice bs s t := by
  by_cases hst : s < t
  · simp [restrictEl, if_pos hst, applyEls]
  · simp only [restrictEl, if_neg hst, applyEls]
    rw [slice, show t - s = 0 by omega, List.take_zero]

/-- Restricting a segment list to a target interval and applying it is the
same as applying the whole list and slicing the interval out. -/
theorem applyEls_partEls (base : Rope) :
    ∀ (els : List DeltaElement) (pos p q : Nat),
      elsWF base.length pos els = true →
      applyEls base (partEls els p q) = slice (applyEls base els) p q := by
  intro els
  induction els with
  | nil =>
      intro pos p q _
      simp [partEls, applyEls, slice]
  | cons e rest ih =>
      intro pos p q hwf
      cases e with
      | copy a b =>
          simp only [elsWF, Bool.and_eq_true, decide_eq_true_eq] at hwf
          obtain ⟨⟨⟨hpa, hab⟩, hbl⟩, hrest⟩ := hwf
          have hlen : (slice base a b).length = b - a := slice_length_of_le hab hbl
          simp only [partEls, applyEls, applyEls_append, elLen]
          rw [applyEls_restrictEl_copy base a b _ _ (min_le_right _ _),
            ih b _ _ hrest, slice_append, hlen]
          congr 1
          rw [slice_clamp (slice base a b) p q, hlen]
      | insert bs =>
          simp only [elsWF] at hwf
          simp only [partEls, applyEls, applyEls_append, elLen]
          rw [applyEls_restrictEl_insert, ih pos _ _ hwf, slice_append]
          congr 1
          exact (slice_clamp bs p q).symm


/-- Chaining against a fixed first segment list commutes with sequential
application. -/
theorem applyEls_chainEls (base : Rope) (els1 : List DeltaElement)
    (hwf1 : elsWF base.length 0 els1 = true) :
    ∀ els2 : List DeltaElement,
      applyEls base (chainEls els1 els2) = applyEls (applyEls base els1) els2 := by
  intro els2
  induction els2 with
  | nil => rfl
  | cons e rest ih =>
      cases e with
      | copy p q =>
          simp only [chainEls, applyEls, applyEls_append, ih]
          congr 1
          exact applyEls_partEls base els1 0 p q hwf1
      | insert bs =>
          simp only [chainEls, applyEls, ih]

/-- C2.  Chain correctness: for every ByteRope b and composable well-formed
deltas d1, d2 (d1.base_len = b.len() and d2.base_len is the length of b
after d1), applying the single chained delta Action::chain to b yields the
same rope as applying d1 to b and then d2 to the intermediate result. -/
theorem chain_correct (b : Rope) (d1 d2 : Delta)
    (hwf1 : d1.wf = true) (hwf2 : d2.wf = true)
    (hl1 : d1.base_len = b.length)
    (hl2 : d2.base_len = (apply_delta b d1).length) :
    apply_delta b ((Action.from_delta d1).chain (apply_delta b d1) d2).delta
      = apply_delta (apply_delta b d1) d2 := by
  have hwf1' : elsWF b.length 0 d1.els = true := by
    rw [← hl1]; exact hwf1
  simpa [Action.chain, Action.from_delta, Delta.chain, apply_delta] using
    applyEls_chainEls b d1.els hwf1' d2.els

/-- Witness for C2 at Scenario C of the spec: base [0,1,2,3], d1 inserts
[5] at position 1, d2 inserts [6] at position 2 of the intermediate
[0,5,1,2,3]; the chained delta applied to the base gives [0,5,6,1,2,3]. -/
theorem chain_correct_witness :
    apply_delta [0, 1, 2, 3]
        ((Action.from_delta (Delta.mk [.copy 0 1, .insert [5], .copy 1 4] 4)).chain
          (apply_delta [0, 1, 2, 3] (Delta.mk [.copy 0 1, .insert [5], .copy 1 4] 4))
          (Delta.mk [.copy 0 2, .insert [6], .copy 2 5] 5)).delta
      = [0, 5, 6, 1, 2, 3] :=
  (chain_correct [0, 1, 2, 3]
      (Delta.mk [.copy 0 1, .insert [5], .copy 1 4] 4)
      (Delta.mk [.copy 0 2, .insert [6], .copy 2 5] 5)
      (by decide) (by decide) (by decide) (by decide)).trans (by decide)

/- Edit history (src/history.rs). -/

/-- src/history.rs, struct History: the in-progress recording plus the
undo and redo stacks. -/
structure History where
  current_incomplete : Option Action
  undo : List Action
  redo : List Action
deriving DecidableEq, Repr

/-- src/history.rs, History::commit.  The body of the function is empty
(`fn commit(&mut self) {}`), so committing leaves the history unchanged. -/
def History.commit (h : History) : History := h

/-- C3.  The claim states that commit() on a history whose
current_incomplete is Some(action) pushes that action onto the undo stack
and leaves current_incomplete empty.  History::commit has an empty body:
at the concrete failing input below it changes nothing, so
current_incomplete stays Some and the undo stack stays empty, and in
particular the state the claim prescribes is not reached. -/
theorem commit_is_noop :
    History.commit ⟨some (Action.from_delta ⟨[], 0⟩), [], []⟩
        = ⟨some (Action.from_delta ⟨[], 0⟩), [], []⟩
      ∧ (History.commit ⟨some (Action.from_delta ⟨[], 0⟩), [], []⟩).current_incomplete ≠ none
      ∧ (History.commit ⟨some (Action.from_delta ⟨[], 0⟩), [], []⟩).undo
          ≠ [Action.from_delta ⟨[], 0⟩] :=
  ⟨rfl, by decide, by decide⟩

/- Navigation (src/navigation.rs). -/

/-- A model of the f64 values the navigation code manipulates: a rational
number, one of the two infinities, or NaN.  Only ordering, negation and
the conversions the code performs are needed; f64 rounding is abstracted
to exact rational arithmetic, on which no settled claim depends. -/
inductive F64 where
  | num (q : ℚ)
  | inf
  | ninf
  | nan
deriving DecidableEq, Repr

/-- The f64 comparison <=: false whenever either side is NaN. -/
def F64.le : F64 → F64 → Bool
  | .nan, _ => false
  | _, .nan => false
  | .ninf, _ => true
  | .num _, .ninf => false
  | .inf, .ninf => false
  | .num a, .num b => decide (a ≤ b)
  | .num _, .inf => true
  | .inf, .num _ => false
  | .inf, .inf => true

/-- f64 negation. -/
def F64.neg : F64 → F64
  | .num q => .num (-q)
  | .inf => .ninf
  | .ninf => .inf
  | .nan => .nan

/-- The Rust float-to-u64 `as` cast: NaN and negatives go to 0, the cast
saturates at the type bounds and truncates toward zero. -/
def F64.as_u64 : F64 → Nat
  | .nan => 0
  | .ninf => 0
  | .inf => 2 ^ 64 - 1
  | .num q => if q < 0 then 0 else min q.floor.toNat (2 ^ 64 - 1)

/-- f64 division by the constant 100.0. -/
def F64.div100 : F64 → F64
  | .num q => .num (q / 100)
  | x => x

/-- f64 multiplication by a nonnegative integer (the file size); infinity
times zero is NaN. -/
def F64.mulNat : F64 → Nat → F64
  | .num q, n => .num (q * n)
  | .inf, n => if n = 0 then .nan else .inf
  | .ninf, n => if n = 0 then .nan else .ninf
  | .nan, _ => .nan

/-- src/navigation.rs, struct NavigationSystem. -/
structure NavigationSystem where
  file_size : Nat
  current_percentage : F64
  chunk_size : Nat
deriving DecidableEq, Repr

/-- src/navigation.rs, NavigationSystem::percentage_to_offset:
((percentage / 100.0) * file_size as f64) as u64. -/
def percentage_to_offset (nav : NavigationSystem) (percentage : F64) : Nat :=
  ((percentage.div100).mulNat nav.file_size).as_u64

/-- src/navigation.rs, NavigationSystem::jump_to_percentage.  The pair
holds the Rust return value and the post-call state of the system; the
debug_log side effects carry no state and are dropped. -/
def jump_to_percentage (nav : NavigationSystem) (percentage : F64) :
    Except String Nat × NavigationSystem :=
  if !(F64.le (.num 0) percentage && F64.le percentage (.num 100)) then
    (.error "Percentage must be between 0 and 100", nav)
  else
    let target_offset := percentage_to_offset nav percentage
    (.ok target_offset, { nav with current_percentage := percentage })

/-- src/navigation.rs, enum FilePosition. -/
inductive FilePosition where
  | START
  | QUARTER
  | MIDDLE
  | THREE_QUARTERS
  | END
deriving DecidableEq, Repr

/-- src/navigation.rs, enum NavCommandType. -/
inductive NavCommandType where
  | AbsoluteJump
  | RelativeMove
  | QuickPosition (pos : FilePosition)
deriving DecidableEq, Repr

/-- src/navigation.rs, struct NavigationCommand. -/
structure NavigationCommand where
  command_type : NavCommandType
  value : F64
deriving DecidableEq, Repr

/-- ASCII lowercasing, the effect of str::to_lowercase on the command
alphabet in scope here. -/
def asciiToLower (c : Char) : Char :=
  if 'A' ≤ c ∧ c ≤ 'Z' then Char.ofNat (c.toNat + 32) else c

/-- ASCII whitespace, the effect of str::trim on the inputs in scope. -/
def isWsChar (c : Char) : Bool :=
  c = ' ' || c = '\t' || c = '\n' || c = '\r'

/-- str::trim: whitespace removed from both ends. -/
def trimChars (l : List Char) : List Char :=
  ((l.dropWhile isWsChar).reverse.dropWhile isWsChar).reverse

/-- input.trim().to_lowercase(), the normalization NavigationCommand::parse
performs first. -/
def navNormalize (input : List Char) : List Char :=
  (trimChars input).map asciiToLower

/-- ASCII digit test. -/
def isDigitChar (c : Char) : Bool := '0' ≤ c && c ≤ '9'

/-- Numeric value of a digit string. -/
def digitsVal (l : List Char) : Nat :=
  l.foldl (fun a c => a * 10 + (c.toNat - 48)) 0

/-- Split a character list at the first occurrence of c. -/
def splitAtChar (c : Char) : List Char → Option (List Char × List Char)
  | [] => none
  | x :: r =>
      if x = c then some ([], r)
      else (splitAtChar c r).map (fun pr => (x :: pr.1, pr.2))

/-- Modelled std library: the mantissa of the f64 grammar, digits with an
optional point (digits, digits.digits, digits., .digits). -/
def parseMantissa (l : List Char) : Option ℚ :=
  let intPart := l.takeWhile isDigitChar
  let rest := l.dropWhile isDigitChar
  match rest with
  | [] => if intPart.isEmpty then none else some ((digitsVal intPart : ℤ) : ℚ)
  | '.' :: frac =>
      if frac.all isDigitChar && !(intPart.isEmpty && frac.isEmpty) then
        some ((digitsVal intPart : ℚ) + (digitsVal frac : ℚ) / ((10 : ℚ) ^ frac.length))
      else none
  | _ => none

/-- Modelled std library: the exponent of the f64 grammar (an optionally
signed nonempty digit string). -/
def parseExponent (l : List Char) : Option ℤ :=
  match l with
  | '+' :: d => if !d.isEmpty && d.all isDigitChar then some ((digitsVal d : ℤ)) else none
  | '-' :: d => if !d.isEmpty && d.all isDigitChar then some (-(digitsVal d : ℤ)) else none
  | d => if !d.isEmpty && d.all isDigitChar then some ((digitsVal d : ℤ)) else none

/-- Modelled std library: str::parse::<f64> without a leading sign, on
already-lowercased input: inf, infinity, nan, or a mantissa with an
optional e-exponent. -/
def parseF64unsigned (l : List Char) : Option F64 :=
  if l = "inf".toList || l = "infinity".toList then some .inf
  else if l = "nan".toList then some .nan
  else
    match splitAtChar 'e' l with
    | none => (parseMantissa l).map F64.num
    | some (m, e) =>
        match parseMantissa m, parseExponent e with
        | some q, some ex => some (.num (q * (10 : ℚ) ^ ex))
        | _, _ => none

/-- Modelled std library: str::parse::<f64> on already-lowercased input:
an optional sign followed by the unsigned grammar. -/
def parseF64 (l : List Char) : Option F64 :=
  match l with
  | '+' :: r => parseF64unsigned r
  | '-' :: r => (parseF64unsigned r).map F64.neg
  | r => parseF64unsigned r

/-- str::strip_suffix('%'). -/
def stripPercent (l : List Char) : Option (List Char) :=
  if l.getLast? = some '%' then some l.dropLast else none

/-- src/navigation.rs, NavigationCommand::parse: trim and lowercase, accept
the quick positions start and end, otherwise strip the % suffix and parse
the body as an absolute or sign-prefixed relative percentage; everything
else is the Invalid navigation command error. -/
def NavigationCommand.parse (input : List Char) : Except String NavigationCommand :=
  if navNormalize input = "start".toList then
    .ok ⟨.QuickPosition .START, .num 0⟩
  else if navNormalize input = "end".toList then
    .ok ⟨.QuickPosition .END, .num 0⟩
  else
    match stripPercent (navNormalize input) with
    | some percentage =>
        match percentage with
        | c :: value =>
            if c = '+' then
              match parseF64 value with
              | some n => .ok ⟨.RelativeMove, n⟩
              | none => .error "Invalid navigation command"
            else if c = '-' then
              match parseF64 value with
              | some n => .ok ⟨.RelativeMove, n.neg⟩
              | none => .error "Invalid navigation command"
            else
              match parseF64 (c :: value) with
              | some n => .ok ⟨.AbsoluteJump, n⟩
              | none => .error "Invalid navigation command"
        | [] =>
            match parseF64 [] with
            | some n => .ok ⟨.AbsoluteJump, n⟩
            | none => .error "Invalid navigation command"
    | none => .error "Invalid navigation command"

/-- The well-formed navigation inputs in the words of the spec: after
trimming and lowercasing, the input is start, end, or a percentage command
(a float, optionally preceded by a relative-move sign, followed by %). -/
def wellFormedNavInput (input : List Char) : Bool :=
  decide (navNormalize input = "start".toList)
    || decide (navNormalize input = "end".toList)
    || (match stripPercent (navNormalize input) with
        | some percentage =>
            match percentage with
            | c :: value =>
                if c = '+' then (parseF64 value).isSome
                else if c = '-' then (parseF64 value).isSome
                else (parseF64 (c :: value)).isSome
            | [] => (parseF64 []).isSome
        | none => false)

/-- C8.  Invalid navigation input is rejected without mutation and without
crashing: a percentage outside [0,100] in the f64 order (which includes
NaN, incomparable to everything) makes jump_to_percentage return an error
and leave the navigation state unchanged, and an input that is not start,
end or a well-formed percentage command makes NavigationCommand::parse
return the Invalid navigation command error value rather than any panic
(the function is total). -/
theorem invalid_navigation_rejected :
    (∀ (nav : NavigationSystem) (p : F64),
        (F64.le (.num 0) p && F64.le p (.num 100)) = false →
        jump_to_percentage nav p = (.error "Percentage must be between 0 and 100", nav))
    ∧ (∀ input : List Char,
        wellFormedNavInput input = false →
        NavigationCommand.parse input = .error "Invalid navigation command") := by
  constructor
  · intro nav p h
    simp [jump_to_percentage, h]
  · intro input h
    unfold wellFormedNavInput at h
    unfold NavigationCommand.parse
    by_cases h1 : navNormalize input = "start".toList
    · simp [h1] at h
    · rw [if_neg h1]
      by_cases h2 : navNormalize input = "end".toList
      · simp [h2] at h
      · rw [if_neg h2]
        rw [decide_eq_false h1, decide_eq_false h2, Bool.false_or, Bool.false_or] at h
        rcases hsp : stripPercent (navNormalize input) with _ | percentage
        · rfl
        · rw [hsp] at h
          rcases percentage with _ | ⟨c, value⟩
          · dsimp only at h ⊢
            rcases hpf : parseF64 [] with _ | n
            · rfl
            · rw [hpf] at h
              simp at h
          · dsimp only at h ⊢
            by_cases hc1 : c = '+'
            · rw [if_pos hc1] at h ⊢
              rcases hpf : parseF64 value with _ | n
              · rfl
              · rw [hpf] at h
                simp at h
            · rw [if_neg hc1] at h ⊢
              by_cases hc2 : c = '-'
              · rw [if_pos hc2] at h ⊢
                rcases hpf : parseF64 value with _ | n
                · rfl
                · rw [hpf] at h
                  simp at h
              · rw [if_neg hc2] at h ⊢
                rcases hpf : parseF64 (c :: value) with _ | n
                · rfl
                · rw [hpf] at h
                  simp at h

/-- Witness for C8: jumping to NaN percent fails and leaves the system
untouched, and the string nonsense% is rejected with the error value. -/
theorem invalid_navigation_rejected_witness :
    jump_to_percentage ⟨1000, .num 0, 384⟩ .nan
        = (.error "Percentage must be between 0 and 100", ⟨1000, .num 0, 384⟩)
      ∧ NavigationCommand.parse "nonsense%".toList = .error "Invalid navigation command" :=
  ⟨invalid_navigation_rejected.1 ⟨1000, .num 0, 384⟩ .nan (by decide),
   invalid_navigation_rejected.2 "nonsense%".toList (by decide)⟩

/- Windowed buffer manager (src/hex_view/view.rs). -/

/- Propagated-error results are compared in witnesses, so equality on
Except must be decidable. -/
deriving instance DecidableEq for Except

/-- The error outcomes of the buffer-management paths: a usize underflow
(a panic in debug builds) or a propagated I/O error. -/
inductive VErr where
  | panic
  | ioErr
deriving DecidableEq, Repr

/-- The HexView state the buffer-management and scrolling code reads and
writes: the current buffer rope, the view offset, the terminal height
(self.size.1), bytes_per_line, and whether the buffer has a backing file
path.  Selections, modes and draw bookkeeping are untouched by these code
paths and are not tracked. -/
structure HexViewSt where
  data : List Byte
  start_offset : Nat
  size_rows : Nat
  bytes_per_line : Nat
  hasPath : Bool
deriving DecidableEq, Repr

/-- The file-read oracle: offset and maximal count in, bytes out.
File::open, seek and read failures are collapsed into one error case. -/
abbrev FileOracle := Nat → Nat → Except VErr (List Byte)

/-- The oracle of an intact backing file with the given contents. -/
def fileOracle (file : List Byte) : FileOracle :=
  fun off n => .ok ((file.drop off).take n)

/-- src/hex_view/view.rs, HexView::is_near_bottom.  Both subtractions are
usize arithmetic: size.1 - 2 and total_buffer_bytes - current_view_end
underflow (and panic in debug builds) when the minuend is smaller, which
the error case records. -/
def is_near_bottomE (st : HexViewSt) : Except VErr Bool :=
  if st.size_rows < 2 then .error .panic
  else
    let visible_rows := st.size_rows - 2
    let total_buffer_bytes := st.data.length
    let current_view_end := st.start_offset + visible_rows * st.bytes_per_line
    if total_buffer_bytes < current_view_end then .error .panic
    else .ok (decide (total_buffer_bytes - current_view_end < total_buffer_bytes / 10))

/-- src/hex_view/view.rs, HexView::is_near_top. -/
def is_near_topB (st : HexViewSt) : Bool :=
  decide (st.start_offset < st.data.length / 10)

/-- src/hex_view/view.rs, HexView::add_chunk_to_bottom.  With a backing
path, seek to the current rope length (not start_offset + length), read up
to chunk_size bytes there, and when anything was read append it at the end
of the rope through a delta.  The first component is the post-call state,
the second the propagated error if the read failed (no state was touched
by then). -/
def add_chunk_to_bottomM (io : FileOracle) (st : HexViewSt) (chunk_size : Nat) :
    HexViewSt × Option VErr :=
  if st.hasPath then
    match io st.data.length chunk_size with
    | .error e => (st, some e)
    | .ok bytes =>
        if 0 < bytes.length then ({ st with data := st.data ++ bytes }, none)
        else (st, none)
  else (st, none)

/-- src/hex_view/view.rs, HexView::add_chunk_to_top: read up to chunk_size
bytes ending at start_offset (saturating below at 0), insert them at the
beginning of the rope and move start_offset to the read position. -/
def add_chunk_to_topM (io : FileOracle) (st : HexViewSt) (chunk_size : Nat) :
    HexViewSt × Option VErr :=
  if st.hasPath then
    match io (st.start_offset - chunk_size) chunk_size with
    | .error e => (st, some e)
    | .ok bytes =>
        if 0 < bytes.length then
          ({ st with data := bytes ++ st.data,
                     start_offset := st.start_offset - chunk_size }, none)
        else (st, none)
  else (st, none)

/-- src/hex_view/view.rs, HexView::trim_buffer_bottom: when the rope holds
more than chunk_size * 2 bytes, delete its first chunk_size bytes and
advance start_offset by chunk_size. -/
def trim_buffer_bottom (st : HexViewSt) (chunk_size : Nat) : HexViewSt :=
  if chunk_size * 2 < st.data.length then
    { st with data := st.data.drop chunk_size,
              start_offset := st.start_offset + chunk_size }
  else st

/-- src/hex_view/view.rs, HexView::trim_buffer_top: when the rope holds
more than chunk_size * 2 bytes, delete its last chunk_size bytes;
start_offset is not touched. -/
def trim_buffer_top (st : HexViewSt) (chunk_size : Nat) : HexViewSt :=
  if chunk_size * 2 < st.data.length then
    { st with data := st.data.take (st.data.length - chunk_size) }
  else st

/-- src/hex_view/view.rs, HexView::manage_buffer with its hard-coded
chunk size 368: on the near-bottom trigger fetch at the bottom and call
trim_buffer_top, then on the near-top trigger (re-evaluated on the updated
state) fetch at the top and call trim_buffer_bottom; errors propagate with
the state reached so far. -/
def manage_bufferM (io : FileOracle) (st : HexViewSt) : HexViewSt × Option VErr :=
  match is_near_bottomE st with
  | .error e => (st, some e)
  | .ok nearBottom =>
      match (if nearBottom then
              match add_chunk_to_bottomM io st 368 with
              | (s, some e) => (s, some e)
              | (s, none) => (trim_buffer_top s 368, none)
            else (st, none)) with
      | (s, some e) => (s, some e)
      | (st1, none) =>
          if is_near_topB st1 then
            match add_chunk_to_topM io st1 368 with
            | (s, some e) => (s, some e)
            | (s, none) => (trim_buffer_bottom s 368, none)
          else (st1, none)

/-- src/hex_view/view.rs, HexView::visible_bytes().end:
min(data.len() + 1, start_offset + (size.1 - 1) * bytes_per_line). -/
def visible_end (st : HexViewSt) : Nat :=
  min (st.data.length + 1) (st.start_offset + (st.size_rows - 1) * st.bytes_per_line)

/-- Modelled from the spec: CurrentBuffer::load_next_chunk
(current_buffer.rs is not under src/).  Per the near-bottom fetch of spec
section 4.4 and the initial load in src/bin/teehee.rs, it reads the next
chunk of the file just past the bytes already materialized and appends it
to the rope; read failures propagate before any state change. -/
def load_next_chunkM (io : FileOracle) (st : HexViewSt) (chunk_size : Nat) :
    HexViewSt × Option VErr :=
  match io st.data.length chunk_size with
  | .error e => (st, some e)
  | .ok bytes => ({ st with data := st.data ++ bytes }, none)

/-- src/hex_view/view.rs, HexView::scroll_down: maybe pre-load a chunk,
return early at the bottom of the materialized buffer, advance
start_offset by 0x10 * line_count, redraw, advance start_offset by
0x10 * line_count once more, then run manage_buffer.  Draw calls do not
touch the tracked state.  The pair holds the post-call state and the
propagated error, if any. -/
def scroll_downM (io : FileOracle) (st : HexViewSt) (line_count : Nat) :
    HexViewSt × Option VErr :=
  match (if st.data.length ≤ st.start_offset + line_count * 16 then
          load_next_chunkM io st ((st.size_rows - 1) * 16)
        else (st, none)) with
  | (s, some e) => (s, some e)
  | (st1, none) =>
      if st1.data.length ≤ visible_end st1 then (st1, none)
      else
        if st1.size_rows - 1 < line_count then
          ({ st1 with start_offset := st1.start_offset + 16 * line_count }, none)
        else
          manage_bufferM io
            { st1 with
                start_offset := st1.start_offset + 16 * line_count + 16 * line_count }

/-- src/hex_view/view.rs, the ctrl-e arm of HexView::handle_event_default:
load the next chunk (chunk size (height - 1) * 16), move the selections
down one line (selections are not tracked here), then scroll_down by one
line. -/
def ctrl_e_stepM (io : FileOracle) (st : HexViewSt) : HexViewSt × Option VErr :=
  match load_next_chunkM io st ((st.size_rows - 1) * 16) with
  | (s, some e) => (s, some e)
  | (st1, none) => scroll_downM io st1 1

/-- C10.  The near-bottom check is not total: whenever the visible view
end start_offset + (size.1 - 2) * bytes_per_line exceeds the buffer
length, the usize subtraction total_buffer_bytes - current_view_end in
is_near_bottom underflows (a panic in debug builds), so is_near_bottom
and with it manage_buffer are well defined only under the precondition
that the view end does not exceed the buffer length. -/
theorem is_near_bottom_underflow (io : FileOracle) (st : HexViewSt)
    (hrows : 2 ≤ st.size_rows)
    (h : st.data.length < st.start_offset + (st.size_rows - 2) * st.bytes_per_line) :
    is_near_bottomE st = .error .panic ∧ manage_bufferM io st = (st, some .panic) := by
  have hb : is_near_bottomE st = .error .panic := by
    unfold is_near_bottomE
    rw [if_neg (by omega), if_pos h]
  refine ⟨hb, ?_⟩
  unfold manage_bufferM
  rw [hb]

set_option maxRecDepth 100000 in
/-- Witness for C10 at a buffer shorter than one screen: 100 bytes,
25 terminal rows, 16 bytes per line, view offset 0. -/
theorem is_near_bottom_underflow_witness :
    is_near_bottomE ⟨List.replicate 100 0, 0, 25, 16, true⟩ = .error .panic
      ∧ manage_bufferM (fun _ _ => .ok []) ⟨List.replicate 100 0, 0, 25, 16, true⟩
          = (⟨List.replicate 100 0, 0, 25, 16, true⟩, some .panic) :=
  is_near_bottom_underflow (fun _ _ => .ok []) ⟨List.replicate 100 0, 0, 25, 16, true⟩
    (by decide) (by decide)

set_option maxRecDepth 100000 in
/-- C4.  The claim says the near-bottom trim deletes the first chunk_size
bytes and advances start_offset by chunk_size.  At the failing input below
(368-byte chunks, a 740-byte window at offset 370 within 2 bytes of the
view end, backed by a 741-byte file) the near-bottom path of manage_buffer
fetches one byte and then calls trim_buffer_top, which deletes the LAST
368 bytes and leaves start_offset at 370: the freshly fetched trailing
byte 7 is gone, the front is intact, and neither the rope nor the offset
the claim prescribes is produced. -/
theorem near_bottom_trim_removes_back :
    manage_bufferM (fileOracle (List.replicate 741 7))
        ⟨List.replicate 740 0, 370, 25, 16, true⟩
      = (⟨List.replicate 373 0, 370, 25, 16, true⟩, none)
      ∧ List.replicate 373 (0 : Byte) ≠ (List.replicate 740 (0 : Byte) ++ [7]).drop 368
      ∧ (370 : Nat) ≠ 370 + 368 := by
  refine ⟨by decide, by decide, by decide⟩

/-- C5, counterexample.  The claim says the near-bottom fetch reads at
file offset start_offset + rope.len().  With rope [99, 99] at
start_offset 3 over the file [10, .., 15] and chunk size 1, the code seeks
to offset 2 (the rope length alone) and appends byte 12; the claimed read
position 5 would have appended byte 15. -/
theorem add_chunk_ignores_start_offset :
    add_chunk_to_bottomM (fileOracle [10, 11, 12, 13, 14, 15]) ⟨[99, 99], 3, 25, 16, true⟩ 1
        = (⟨[99, 99, 12], 3, 25, 16, true⟩, none)
      ∧ ([99, 99, 12] : List Byte)
          ≠ [99, 99] ++ slice [10, 11, 12, 13, 14, 15] (3 + 2) (3 + 2 + 1) := by
  refine ⟨by decide, by decide⟩

/-- C5, amended.  With a backing path and an intact file, the near-bottom
fetch reads up to chunk_size bytes at file offset rope.len() — ignoring
start_offset — and appends exactly the bytes read at the end of the rope. -/
theorem add_chunk_appends_read_at_rope_len (file : List Byte) (st : HexViewSt)
    (chunk_size : Nat) (hpath : st.hasPath = true) :
    add_chunk_to_bottomM (fileOracle file) st chunk_size
      = ({ st with data := st.data ++ (file.drop st.data.length).take chunk_size }, none) := by
  unfold add_chunk_to_bottomM fileOracle
  rw [if_pos hpath]
  dsimp only
  by_cases hb : 0 < ((file.drop st.data.length).take chunk_size).length
  · rw [if_pos hb]
  · rw [if_neg hb]
    have hnil : (file.drop st.data.length).take chunk_size = [] :=
      List.eq_nil_of_length_eq_zero (by omega)
    rw [hnil, List.append_nil]

/-- Witness for the amended C5: an empty rope over the file [1,2,3] with
chunk size 2 gains exactly the first two file bytes. -/
theorem add_chunk_appends_read_at_rope_len_witness :
    add_chunk_to_bottomM (fileOracle [1, 2, 3]) ⟨[], 0, 25, 16, true⟩ 2
      = (⟨[1, 2], 0, 25, 16, true⟩, none) :=
  (add_chunk_appends_read_at_rope_len [1, 2, 3] ⟨[], 0, 25, 16, true⟩ 2 rfl).trans (by decide)

set_option maxRecDepth 100000 in
/-- C7, counterexample.  The claim says a failing chunk read leaves rope
and start_offset exactly as before the triggering scroll.  Scrolling one
line from offset 340 over a 740-byte window with a failing oracle: the
near-bottom fetch inside manage_buffer fails and the error propagates, but
by then scroll_down has already advanced start_offset twice, so the
post-call offset is 372, not 340 (the rope is indeed unchanged). -/
theorem scroll_error_offset_moved :
    scroll_downM (fun _ _ => .error .ioErr) ⟨List.replicate 740 0, 340, 25, 16, true⟩ 1
        = (⟨List.replicate 740 0, 372, 25, 16, true⟩, some .ioErr)
      ∧ (372 : Nat) ≠ 340 := by
  refine ⟨by decide, by decide⟩

/-- C7, amended.  A failing chunk read aborts the scroll with a
recoverable error and the failing read itself mutates nothing, but the
scroll is not atomic around it: a failure of the pre-scroll
load_next_chunk read leaves rope and start_offset exactly as before the
scroll began, while a failure of the manage_buffer fetch surfaces only
after start_offset has already been advanced by 0x10 * line_count twice
and after a successful pre-load (if the pre-load guard fired) has already
appended its chunk to the rope.  The second part names the post-pre-load
state st1 through its defining equation and relates it to the pre-scroll
state: same start_offset, rope extended by the loaded bytes. -/
theorem scroll_error_atomicity :
    (∀ (io : FileOracle) (st : HexViewSt) (line_count : Nat) (e : VErr),
        st.data.length ≤ st.start_offset + line_count * 16 →
        io st.data.length ((st.size_rows - 1) * 16) = .error e →
        scroll_downM io st line_count = (st, some e))
    ∧ (∀ (io : FileOracle) (st st1 : HexViewSt) (line_count : Nat) (e : VErr),
        st1.hasPath = true →
        (if st.data.length ≤ st.start_offset + line_count * 16 then
            load_next_chunkM io st ((st.size_rows - 1) * 16)
          else (st, none)) = (st1, none) →
        ¬ st1.data.length ≤ visible_end st1 →
        ¬ st1.size_rows - 1 < line_count →
        is_near_bottomE
            { st1 with
                start_offset := st1.start_offset + 16 * line_count + 16 * line_count }
          = .ok true →
        io st1.data.length 368 = .error e →
        scroll_downM io st line_count
            = ({ st1 with
                  start_offset := st1.start_offset + 16 * line_count + 16 * line_count },
                some e)
          ∧ st1.start_offset = st.start_offset
          ∧ ∃ bs, st1.data = st.data ++ bs) := by
  constructor
  · intro io st line_count e hguard hio
    unfold scroll_downM
    rw [if_pos hguard]
    unfold load_next_chunkM
    rw [hio]
  · intro io st st1 line_count e hpath hstep1 hvis hlc hnb hio
    refine ⟨?_, ?_⟩
    · unfold scroll_downM
      rw [hstep1]
      dsimp only
      rw [if_neg hvis, if_neg hlc]
      rw [hpath] at hnb
      simp [manage_bufferM, hnb, add_chunk_to_bottomM, hpath, hio]
    · by_cases hg : st.data.length ≤ st.start_offset + line_count * 16
      · rw [if_pos hg] at hstep1
        unfold load_next_chunkM at hstep1
        cases hread : io st.data.length ((st.size_rows - 1) * 16) with
        | error e2 =>
            rw [hread] at hstep1
            exact absurd hstep1 (by simp)
        | ok bytes =>
            rw [hread] at hstep1
            simp only [Prod.mk.injEq, and_true] at hstep1
            rw [← hstep1]
            exact ⟨rfl, bytes, rfl⟩
      · rw [if_neg hg] at hstep1
        simp only [Prod.mk.injEq, and_true] at hstep1
        rw [← hstep1]
        exact ⟨rfl, [], (List.append_nil _).symm⟩

set_option maxRecDepth 1000000 in
/-- Witness for the amended C7, exercising both failure points.  First, a
scroll whose pre-load read fails (356-byte rope at offset 340, so the
pre-load guard fires; the oracle always fails): the scroll aborts and the
state is exactly the pre-scroll state.  Second, a scroll whose pre-load
succeeds and whose manage_buffer fetch fails (the oracle fails only at
file offset 740): the scroll aborts with the recoverable error, with the
rope grown from 356 to 740 bytes by the pre-load and start_offset
advanced from 340 to 372. -/
theorem scroll_error_atomicity_witness :
    scroll_downM (fun _ _ => .error .ioErr) ⟨List.replicate 356 0, 340, 25, 16, true⟩ 1
        = (⟨List.replicate 356 0, 340, 25, 16, true⟩, some .ioErr)
      ∧ scroll_downM
          (fun off n =>
            if off = 740 then .error .ioErr
            else .ok (((List.replicate 740 7).drop off).take n))
          ⟨List.replicate 356 0, 340, 25, 16, true⟩ 1
        = (⟨List.replicate 356 0 ++ List.replicate 384 7, 372, 25, 16, true⟩,
            some .ioErr) := by
  constructor
  · exact scroll_error_atomicity.1 (fun _ _ => .error .ioErr)
      ⟨List.replicate 356 0, 340, 25, 16, true⟩ 1 .ioErr (by decide) rfl
  · have h := (scroll_error_atomicity.2
      (fun off n =>
        if off = 740 then .error .ioErr
        else .ok (((List.replicate 740 7).drop off).take n))
      ⟨List.replicate 356 0, 340, 25, 16, true⟩
      ⟨List.replicate 356 0 ++ List.replicate 384 7, 340, 25, 16, true⟩ 1 .ioErr
      rfl (by decide) (by decide) (by decide) (by decide) (by decide)).1
    exact h.trans (by decide)

set_option maxRecDepth 1000000 in
/-- C6.  The claim says that for file size F and chunk size C the
materialized window length stays within [min(F,C), 2C] after any sequence
of scroll operations.  From the initial 384-byte window of a 1200-byte
file (terminal height 25), two ctrl-e scroll events leave a window of
1152 bytes, which exceeds 2C both for the manage_buffer chunk size 368
and for the load chunk size 384: the code grows the window without
bound. -/
theorem window_bound_violated :
    (((ctrl_e_stepM (fileOracle (List.replicate 1200 0))
        ((ctrl_e_stepM (fileOracle (List.replicate 1200 0))
          ⟨(List.replicate 1200 0).take 384, 0, 25, 16, true⟩).1)).1).data.length = 1152
      ∧ (ctrl_e_stepM (fileOracle (List.replicate 1200 0))
          ⟨(List.replicate 1200 0).take 384, 0, 25, 16, true⟩).2 = none
      ∧ (ctrl_e_stepM (fileOracle (List.replicate 1200 0))
          ((ctrl_e_stepM (fileOracle (List.replicate 1200 0))
            ⟨(List.replicate 1200 0).take 384, 0, 25, 16, true⟩).1)).2 = none)
      ∧ 2 * 368 < 1152 ∧ 2 * 384 < 1152 := by
  refine ⟨⟨by decide, by decide, by decide⟩, by decide, by decide⟩

/- Render pipeline styling (src/hex_view/view.rs, HexView::mark_commands). -/

/-- The style priority stack levels of spec section 4.5, Basic <
Selection < Cursor (the Priority enum lives in the hex_view module root,
which is not under src/). -/
inductive Priority where
  | Basic
  | Selection
  | Cursor
deriving DecidableEq, Repr

/-- A style together with its priority.  The concrete crossterm colors
are abstracted to a numeric tag, distinct for each of the style
constructors below. -/
structure PrioritizedStyle where
  styleTag : Nat
  priority : Priority
deriving DecidableEq, Repr

/-- src/hex_view/view.rs, HexView::default_style (priority Basic). -/
def default_style : PrioritizedStyle := ⟨0, .Basic⟩

/-- src/hex_view/view.rs, HexView::active_selection_style. -/
def active_selection_style : PrioritizedStyle := ⟨1, .Selection⟩

/-- src/hex_view/view.rs, HexView::inactive_selection_style. -/
def inactive_selection_style : PrioritizedStyle := ⟨2, .Selection⟩

/-- src/hex_view/view.rs, HexView::active_caret_style. -/
def active_caret_style : PrioritizedStyle := ⟨3, .Cursor⟩

/-- src/hex_view/view.rs, HexView::inactive_caret_style. -/
def inactive_caret_style : PrioritizedStyle := ⟨4, .Cursor⟩

/-- The styling command of one byte: optional start, mid and end style
transitions (StylingCommand lives in the hex_view module root, which is
not under src/; modelled from spec section 4.5). -/
structure StylingCommand where
  start_style : Option PrioritizedStyle
  mid_style : Option PrioritizedStyle
  end_style : Option PrioritizedStyle
deriving DecidableEq, Repr

/-- StylingCommand::default(): no transitions. -/
def StylingCommand.empty : StylingCommand := ⟨none, none, none⟩

/-- StylingCommand::with_start_style. -/
def StylingCommand.with_start_style (c : StylingCommand) (s : PrioritizedStyle) :
    StylingCommand := { c with start_style := some s }

/-- StylingCommand::with_mid_style. -/
def StylingCommand.with_mid_style (c : StylingCommand) (s : PrioritizedStyle) :
    StylingCommand := { c with mid_style := some s }

/-- StylingCommand::with_end_style. -/
def StylingCommand.with_end_style (c : StylingCommand) (s : PrioritizedStyle) :
    StylingCommand := { c with end_style := some s }

/-- Modelled from the spec: Region (selection.rs is not under src/), an
anchor and caret pair with the main marker; min and max are the two
offsets in order. -/
structure Region where
  anchor : Nat
  caret : Nat
  is_main : Bool
deriving DecidableEq, Repr

/-- The lower of anchor and caret. -/
def Region.min (r : Region) : Nat := Nat.min r.anchor r.caret

/-- The higher of anchor and caret. -/
def Region.max (r : Region) : Nat := Nat.max r.anchor r.caret

/-- The selection block of one mark_commands iteration (view.rs lines
686 to 727): for the first remaining region, push the selection style and
mark a start transition where the region begins, overlay the caret
styling, and mark the end transition back to the style below on the stack
where the region ends.  none models the panics of the last().unwrap()
call on an empty stack and of the command_stack[len - 2] indexing. -/
def markSelBlock (half : Bool) (i : Nat)
    (stack : List PrioritizedStyle) (regions : List Region) :
    Option (StylingCommand × List PrioritizedStyle) :=
  match regions with
  | [] => some (StylingCommand.empty, stack)
  | r :: _ =>
      match (if r.min = i then
              (StylingCommand.empty.with_start_style
                  (if r.is_main then active_selection_style else inactive_selection_style),
                (if r.is_main then active_selection_style else inactive_selection_style)
                  :: stack)
            else (StylingCommand.empty, stack)) with
      | (cmd1, stack1) =>
          match (if r.caret = i then
                  match stack1.head? with
                  | none => none
                  | some base_style =>
                      some (if half then
                              if i = r.min then
                                (cmd1.with_mid_style
                                  (if r.is_main then active_caret_style
                                    else inactive_caret_style)).with_end_style base_style
                              else
                                (cmd1.with_start_style base_style).with_mid_style
                                  (if r.is_main then active_caret_style
                                    else inactive_caret_style)
                            else
                              (cmd1.with_start_style
                                (if r.is_main then active_caret_style
                                  else inactive_caret_style)).with_end_style base_style)
                else some cmd1) with
          | none => none
          | some cmd2 =>
              if r.max = i then
                match stack1.get? 1 with
                | none => none
                | some below => some (cmd2.with_end_style below, stack1)
              else some (cmd2, stack1)

/-- The line block of one mark_commands iteration (view.rs lines 729 to
739): at a line start without a start transition restore the applied
style, else at a line end force the end transition to the default (Basic)
style. -/
def markLineBlock (bpl : Nat) (i : Nat)
    (stack1 : List PrioritizedStyle) (cmd3 : StylingCommand) :
    Option StylingCommand :=
  if i % bpl = 0 ∧ cmd3.start_style = none then
    match stack1.head? with
    | none => none
    | some top => some (cmd3.with_start_style top)
  else if (i + 1) % bpl = 0 then
    some (cmd3.with_end_style default_style)
  else
    some cmd3

/-- The pop block of one mark_commands iteration (view.rs lines 741 to
745): after the line handling, leave a finished region behind and pop its
style from the stack. -/
def markPopBlock (i : Nat)
    (stack1 : List PrioritizedStyle) (regions : List Region) :
    List PrioritizedStyle × List Region :=
  match regions with
  | r :: rest => if r.max = i then (stack1.tail, rest) else (stack1, regions)
  | [] => (stack1, regions)

/-- One full iteration of the mark_commands loop at byte offset i.  Each
iteration of the source loop writes only the entry i - start of the
command vector, so the embedding emits that entry together with the
updated stack and region list. -/
def markStep (bpl : Nat) (half : Bool) (i : Nat)
    (stack : List PrioritizedStyle) (regions : List Region) :
    Option (StylingCommand × List PrioritizedStyle × List Region) :=
  match markSelBlock half i stack regions with
  | none => none
  | some (cmd3, stack1) =>
      match markLineBlock bpl i stack1 cmd3 with
      | none => none
      | some cmd4 =>
          match markPopBlock i stack1 regions with
          | (stack2, regions2) => some (cmd4, stack2, regions2)

/-- The mark_commands loop over the visible range [i, i + n). -/
def markLoop (bpl : Nat) (half : Bool) :
    Nat → Nat → List PrioritizedStyle → List Region → Option (List StylingCommand)
  | 0, _, _, _ => some []
  | n + 1, i, stack, regions =>
      match markStep bpl half i stack regions with
      | none => none
      | some (c, stack1, regions1) =>
          match markLoop bpl half n (i + 1) stack1 regions1 with
          | none => none
          | some rest => some (c :: rest)

/-- src/hex_view/view.rs, HexView::mark_commands over the visible byte
range [vstart, vstart + n), parameterized by the selected region list
(regions_in_range lives in the missing selection.rs) and by the
half-cursor flag of the active mode: seed the stack with the default
style, push the selection style of a region reaching in from before the
visible range, and run the loop.  none models a panic of the source on
adversarial region lists. -/
def mark_commands (bpl : Nat) (half : Bool) (vstart n : Nat)
    (regions : List Region) : Option (List StylingCommand) :=
  markLoop bpl half n vstart
    (match regions with
     | r :: _ =>
         if r.min < vstart then
           [(if r.is_main then active_selection_style else inactive_selection_style),
             default_style]
         else [default_style]
     | [] => [default_style])
    regions

theorem markLineBlock_line_end {bpl i : Nat} {stack1 : List PrioritizedStyle}
    {cmd3 cmd4 : StylingCommand} (hbpl : 2 ≤ bpl) (hline : (i + 1) % bpl = 0)
    (h : markLineBlock bpl i stack1 cmd3 = some cmd4) :
    cmd4.end_style = some default_style := by
  have hne : ¬(i % bpl = 0 ∧ cmd3.start_style = none) := by
    rintro ⟨h0, -⟩
    have d1 : bpl ∣ i := Nat.dvd_of_mod_eq_zero h0
    have d2 : bpl ∣ i + 1 := Nat.dvd_of_mod_eq_zero hline
    have d3 : bpl ∣ 1 := by
      have := Nat.dvd_sub' d2 d1
      simpa using this
    have := Nat.le_of_dvd (by norm_num) d3
    omega
  unfold markLineBlock at h
  rw [if_neg hne, if_pos hline] at h
  cases h
  rfl

theorem markStep_line_end {bpl : Nat} {half : Bool} {i : Nat}
    {stack : List PrioritizedStyle} {regions : List Region}
    {c : StylingCommand} {stack2 : List PrioritizedStyle} {regions2 : List Region}
    (hbpl : 2 ≤ bpl) (hline : (i + 1) % bpl = 0)
    (h : markStep bpl half i stack regions = some (c, stack2, regions2)) :
    c.end_style = some default_style := by
  unfold markStep at h
  split at h
  next => exact absurd h (by simp)
  next cmd3 stack1 hsel =>
    split at h
    next => exact absurd h (by simp)
    next cmd4 hlb =>
      split at h
      next stack2' regions2' hpop =>
        have h4 := markLineBlock_line_end hbpl hline hlb
        simp only [Option.some.injEq, Prod.mk.injEq] at h
        obtain ⟨hc, -, -⟩ := h
        rw [← hc]
        exact h4

theorem markLoop_line_end (bpl : Nat) (half : Bool) (hbpl : 2 ≤ bpl) :
    ∀ (n i : Nat) (stack : List PrioritizedStyle) (regions : List Region)
      (cmds : List StylingCommand) (j : Nat),
      markLoop bpl half n i stack regions = some cmds →
      j < n → (i + j + 1) % bpl = 0 →
      (cmds.getD j StylingCommand.empty).end_style = some default_style := by
  intro n
  induction n with
  | zero =>
      intro i stack regions cmds j _ hj _
      omega
  | succ n ih =>
      intro i stack regions cmds j h hj hline
      unfold markLoop at h
      split at h
      next => exact absurd h (by simp)
      next c stack1 regions1 hstep =>
        split at h
        next => exact absurd h (by simp)
        next rest hrest =>
          simp only [Option.some.injEq] at h
          subst h
          cases j with
          | zero =>
              have h1 : (i + 1) % bpl = 0 := by
                have := hline
                simpa using this
              simpa [List.getD] using markStep_line_end hbpl h1 hstep
          | succ j =>
              have hline' : (i + 1 + j + 1) % bpl = 0 := by
                have hidx : i + 1 + j + 1 = i + (j + 1) + 1 := by omega
                rw [hidx]
                exact hline
              simpa [List.getD] using
                ih (i + 1) stack1 regions1 rest j hrest (by omega) hline'

/-- C9.  Line-end styling reset: for every visible byte whose offset is
the last of its line ((offset + 1) mod bytes_per_line = 0, with at least
two bytes per line as the view always uses 16), the styling command
mark_commands computes for that byte carries an end transition to the
default style, whose level is Basic — whatever regions or carets cover
the byte, since the line block overwrites any end transition the
selection block set. -/
theorem line_end_resets_to_basic (bpl : Nat) (half : Bool) (vstart n : Nat)
    (regions : List Region) (cmds : List StylingCommand) (j : Nat)
    (hbpl : 2 ≤ bpl)
    (hrun : mark_commands bpl half vstart n regions = some cmds)
    (hj : j < n)
    (hline : (vstart + j + 1) % bpl = 0) :
    (cmds.getD j StylingCommand.empty).end_style = some default_style
      ∧ default_style.priority = Priority.Basic := by
  refine ⟨?_, rfl⟩
  unfold mark_commands at hrun
  exact markLoop_line_end bpl half hbpl n vstart _ regions cmds j hrun hj hline

/-- Witness for C9 with two bytes per line and a main region whose caret
and end fall exactly on the line-end byte 1: the command of byte 1 still
ends with the transition to the default (Basic) style. -/
theorem line_end_resets_to_basic_witness :
    (((mark_commands 2 false 0 4 [⟨1, 1, true⟩]).getD []).getD 1
        StylingCommand.empty).end_style = some default_style :=
  (line_end_resets_to_basic 2 false 0 4 [⟨1, 1, true⟩]
    ((mark_commands 2 false 0 4 [⟨1, 1, true⟩]).getD []) 1 (by decide) (by decide)
    (by decide) (by decide)).1

end Teehee
